import Mathlib

set_option maxRecDepth 100000

/-
Verification development for the load-shifting optimization engine
(src/src/optimization.py).  The per-day pipeline of `run_optimization`
is embedded over exact rationals: hours are indexed by `Nat` (0..23),
a day's prices are a function `Nat → ℚ`, and the power matrix cell is
`Option ℚ` (`none` models the NaN "unspecified" sentinel).

Modelling notes:
- `numpy.argsort` with the default kind does not document tie order; the
  embedding uses a stable insertion sort, which matches argsort on all
  inputs whose action values are pairwise distinct, and fixes the
  original (i asc, j asc) enumeration order on ties.
- Floating point is modelled by exact rational arithmetic.
-/

namespace LoadShifting

/-- Scalar parameters of `run_optimization` (optimization.py lines 21-29). -/
structure Params where
  shiftableHours : Nat
  immediateRebound : Bool
  hourlyBasePower : ℚ
  percentFlexible : ℚ
  shiftedLoadPercentage : ℚ

/-- One day's slice of the inputs: 24 spot prices and 24 power cells,
`none` standing for the NaN "unspecified" marker. -/
structure DayInput where
  price : Nat → ℚ
  power : Nat → Option ℚ

/-- Eligibility mask (line 67): an hour is masked iff its power cell is NaN. -/
def maskAt (D : DayInput) (h : Nat) : Bool :=
  (D.power h).isNone

/-- Baseline power after the in-place NaN fill of line 71. -/
def filled (P : Params) (D : DayInput) (h : Nat) : ℚ :=
  match D.power h with
  | none => P.hourlyBasePower
  | some p => p

/-- The flexible share of the filled baseline power (line 79,
`_base_power = base_power * percent_flexible`). -/
def flex (P : Params) (D : DayInput) (h : Nat) : ℚ :=
  filled P D h * P.percentFlexible

/-- Baseline cost of an hour (line 73, `base_cost = spot_price * base_power`). -/
def baseCostAt (P : Params) (D : DayInput) (h : Nat) : ℚ :=
  D.price h * filled P D h

/-- One candidate action: the hour pair, its value, the two cost deltas
and the two power deltas recorded in `mem_savings` / `mem_consumption`. -/
structure Action where
  i : Nat
  j : Nat
  val : ℚ
  dc1 : ℚ
  dc2 : ℚ
  dp1 : ℚ
  dp2 : ℚ
deriving DecidableEq

/-- Cost of up-regulating hour i and rebounding at hour j using i's flexible
power (lines 102-105). -/
def upDownCost (P : Params) (D : DayInput) (i j : Nat) : ℚ :=
  -D.price i * flex P D i + D.price j * flex P D i * P.shiftedLoadPercentage

/-- Cost formula of lines 107-110 for down-regulating hour i and rebounding at
hour j using j's flexible power.  Line 112 overwrites the computed value with
0.0 before it is used, so this formula never reaches the comparison. -/
def downUpFormula (P : Params) (D : DayInput) (i j : Nat) : ℚ :=
  D.price i * flex P D j * P.shiftedLoadPercentage - D.price j * flex P D j

/-- Pair filter of lines 95-99: keep the strict upper triangle, both hours
unmasked, and under immediate rebound only adjacent hours. -/
def pairEligible (P : Params) (D : DayInput) (i j : Nat) : Bool :=
  !(decide (j ≤ i)) && !(maskAt D i) && !(maskAt D j)
    && !(decide (1 < j - i) && P.immediateRebound)

/-- Per-pair evaluation of lines 101-143: the up-then-down branch, the
down-then-up branch (dead because `down_up_cost` is forced to 0.0 at line
112), and the emission of the action with its recorded deltas. -/
def evalPair (P : Params) (D : DayInput) (i j : Nat) : Option Action :=
  if pairEligible P D i j then
    let ud := upDownCost P D i j
    let du : ℚ := 0
    if ud < du ∧ ud < 0 then
      some ⟨i, j, ud,
        -D.price i * flex P D i,
        D.price j * flex P D i * P.shiftedLoadPercentage,
        -(flex P D i),
        flex P D i * P.shiftedLoadPercentage⟩
    else if du < ud ∧ du < 0 then
      some ⟨i, j, du,
        D.price i * flex P D j * P.shiftedLoadPercentage,
        -(D.price j * flex P D j),
        flex P D j * P.shiftedLoadPercentage,
        -(flex P D j)⟩
    else none
  else none

/-- All actions emitted for the day, in the source's enumeration order
(outer loop i = 0..23, inner loop j = 0..23, lines 91-143). -/
def emitted (P : Params) (D : DayInput) : List Action :=
  (List.range 24).flatMap fun i =>
    (List.range 24).filterMap fun j => evalPair P D i j

/-- Stable insertion (ascending by value) used to model `np.argsort`. -/
def insertAction (a : Action) : List Action → List Action
  | [] => [a]
  | b :: bs => if b.val < a.val then b :: insertAction a bs else a :: b :: bs

/-- Stable sort of the emitted actions by ascending value (line 147). -/
def sortActions : List Action → List Action
  | [] => []
  | a :: as => insertAction a (sortActions as)

/-- Hour membership in an action, the `h in a` test of line 151. -/
def touches (h : Nat) (a : Action) : Bool :=
  h == a.i || h == a.j

/-- Overlap test of lines 150-153: the candidate shares an hour with some
already accepted action. -/
def overlapsB (x : Action) (acc : List Action) : Bool :=
  acc.any fun b => touches x.i b || touches x.j b

/-- Accumulation of `unique_sorted_actions` (lines 146-154): scan the sorted
candidates and keep those that do not overlap anything accepted so far. -/
def buildUnique (acc : List Action) : List Action → List Action
  | [] => acc
  | x :: rest =>
      if overlapsB x acc then buildUnique acc rest
      else buildUnique (acc ++ [x]) rest

/-- The actions actually applied for the day: the non-overlapping list
truncated to the first `shiftable_hours` entries (line 169). -/
def applied (P : Params) (D : DayInput) : List Action :=
  (buildUnique [] (sortActions (emitted P D))).take P.shiftableHours

/-- Total cost delta a list of actions contributes to hour h
(lines 172-173, `mem_cost[d,i] += v1; mem_cost[d,j] += v2`). -/
def contribCost (l : List Action) (h : Nat) : ℚ :=
  (l.map fun a => (if a.i = h then a.dc1 else 0) + (if a.j = h then a.dc2 else 0)).sum

/-- Total power delta a list of actions contributes to hour h
(lines 174-175, `mem_power[d,i] += p1; mem_power[d,j] += p2`). -/
def contribPow (l : List Action) (h : Nat) : ℚ :=
  (l.map fun a => (if a.i = h then a.dp1 else 0) + (if a.j = h then a.dp2 else 0)).sum

/-- Shifted cost of an hour after applying the selected actions. -/
def memCostAt (P : Params) (D : DayInput) (h : Nat) : ℚ :=
  baseCostAt P D h + contribCost (applied P D) h

/-- Shifted power of an hour after applying the selected actions. -/
def memPowerAt (P : Params) (D : DayInput) (h : Nat) : ℚ :=
  filled P D h + contribPow (applied P D) h

/-- Daily total of the baseline cost. -/
def baseCostTotal (P : Params) (D : DayInput) : ℚ :=
  ∑ h in Finset.range 24, baseCostAt P D h

/-- Daily total of the shifted cost. -/
def memCostTotal (P : Params) (D : DayInput) : ℚ :=
  ∑ h in Finset.range 24, memCostAt P D h

/-- Daily total of the filled baseline power. -/
def basePowerTotal (P : Params) (D : DayInput) : ℚ :=
  ∑ h in Finset.range 24, filled P D h

/-- Daily total of the shifted power. -/
def memPowerTotal (P : Params) (D : DayInput) : ℚ :=
  ∑ h in Finset.range 24, memPowerAt P D h

/-- One day's slice of the `OptimizationResult` matrices. -/
structure DayResult where
  baseCost : List ℚ
  memCost : List ℚ
  memPower : List ℚ
deriving DecidableEq

/-- The per-day body of the loop at lines 84-175. -/
def runDay (P : Params) (D : DayInput) : DayResult :=
  ⟨(List.range 24).map (baseCostAt P D),
   (List.range 24).map (memCostAt P D),
   (List.range 24).map (memPowerAt P D)⟩

/-- Whole-run embedding of `run_optimization`: days are processed
independently in order (line 84). -/
def run_optimization (P : Params) (days : List DayInput) : List DayResult :=
  days.map (runDay P)

/-- Two actions are non-overlapping when they share no hour index. -/
def NoOv (a b : Action) : Prop :=
  a.i ≠ b.i ∧ a.i ≠ b.j ∧ a.j ≠ b.i ∧ a.j ≠ b.j

/-- Modelled from the spec (section 4.3), whose early-stopping loop is not
itself a function of the source: iterate the sorted candidates, accept an
action when it overlaps no previously accepted one, and stop as soon as
`shiftable_hours` actions are accepted or the list is exhausted. -/
def specGreedySelect (k : Nat) (acc : List Action) : List Action → List Action
  | [] => acc
  | x :: rest =>
      if acc.length = k then acc
      else if overlapsB x acc then specGreedySelect k acc rest
      else specGreedySelect k (acc ++ [x]) rest

/-- Inputs of `prepare_and_run_optimization` (lines 214-222).  The power
matrix is the one built by `get_power_array` from the spot timestamps, so it
has one cell per spot row; `powerCells` is its flattened cell lookup.
`shiftableHours = none` models the widget returning no value. -/
structure PrepInput where
  shiftableHours : Option Nat
  immediateRebound : Bool
  hourlyBasePower : ℚ
  percentFlexible : ℚ
  shiftedLoadPercentage : ℚ
  prices : List ℚ
  powerCells : Nat → Option ℚ

/-- Number of cells of the power matrix built by `get_power_array`
(line 210): one per row of the spot frame. -/
def builtPowerLen (inp : PrepInput) : Nat :=
  inp.prices.length

/-- Validation asserts of `prepare_and_run_optimization` (lines 226-228 and
235-237): `shiftable_hours` provided, price length a multiple of 24,
`percent_flexible` within [0,1], and the built power matrix shaped like the
price matrix. -/
def validateChecks (inp : PrepInput) : Bool :=
  inp.shiftableHours.isSome
    && (inp.prices.length % 24 == 0)
    && (decide (0 ≤ inp.percentFlexible) && decide (inp.percentFlexible ≤ 1))
    && (builtPowerLen inp == inp.prices.length)

/-- Day d of the flattened inputs, as reshaped by `reshape(-1, 24)`. -/
def dayOf (inp : PrepInput) (d : Nat) : DayInput :=
  ⟨fun h => inp.prices.getD (24 * d + h) 0, fun h => inp.powerCells (24 * d + h)⟩

/-- Scalar parameters the orchestrator hands to `run_optimization`
(lines 241-248). -/
def paramsOf (inp : PrepInput) : Params :=
  ⟨inp.shiftableHours.getD 0, inp.immediateRebound, inp.hourlyBasePower,
   inp.percentFlexible, inp.shiftedLoadPercentage⟩

/-- Day slices obtained by `reshape(-1, 24)` of the flattened inputs. -/
def daysOf (inp : PrepInput) : List DayInput :=
  (List.range (inp.prices.length / 24)).map (dayOf inp)

/-- Total of `mem_power` over the whole run, the flattened sum of line 250
(`sum(flexible_power_response)`). -/
def runMemPowerTotal (inp : PrepInput) : ℚ :=
  ((daysOf inp).map (memPowerTotal (paramsOf inp))).sum

/-- Total of the NaN-filled power matrix, the flattened sum of lines 251-252
(`sum(power_array)` after the remaining NaN cells are filled). -/
def runBasePowerTotal (inp : PrepInput) : ℚ :=
  ((daysOf inp).map (basePowerTotal (paramsOf inp))).sum

/-- Post-run asserts of lines 254-263: with `shifted_load_percentage == 1`
the run total must equal the baseline total (`np.isclose` on floats,
modelled as exact equality of the exact rational totals), otherwise it must
be strictly smaller.  A failure raises `AssertionError` after the run. -/
def postRunCheck (inp : PrepInput) : Bool :=
  if inp.shiftedLoadPercentage = 1
  then decide (runMemPowerTotal inp = runBasePowerTotal inp)
  else decide (runMemPowerTotal inp < runBasePowerTotal inp)

/-- Embedding of `prepare_and_run_optimization`: a failed assert — during
validation (lines 226-228 and 235) or in the post-run conservation checks
(lines 250-263) — aborts the run with no result (`none`); otherwise the
optimization result of the reshaped day slices is returned. -/
def prepare_and_run_optimization (inp : PrepInput) : Option (List DayResult) :=
  if validateChecks inp then
    if postRunCheck inp then
      some (run_optimization (paramsOf inp) (daysOf inp))
    else none
  else none

/-- The action record the up-then-down branch emits for the pair (i, j)
(lines 117-127). -/
def upDownAction (P : Params) (D : DayInput) (i j : Nat) : Action :=
  ⟨i, j, upDownCost P D i j,
   -D.price i * flex P D i,
   D.price j * flex P D i * P.shiftedLoadPercentage,
   -(flex P D i),
   flex P D i * P.shiftedLoadPercentage⟩

/-- Invariant carried by every emitted action. -/
structure EmittedOK (P : Params) (D : DayInput) (a : Action) : Prop where
  hij : a.i < a.j
  hj24 : a.j < 24
  maskI : maskAt D a.i = false
  maskJ : maskAt D a.j = false
  adj : P.immediateRebound = true → a.j = a.i + 1
  valEq : a.val = upDownCost P D a.i a.j
  valNeg : a.val < 0
  dc1Eq : a.dc1 = -D.price a.i * flex P D a.i
  dc2Eq : a.dc2 = D.price a.j * flex P D a.i * P.shiftedLoadPercentage
  dp1Eq : a.dp1 = -(flex P D a.i)
  dp2Eq : a.dp2 = flex P D a.i * P.shiftedLoadPercentage

/-- Nonnegative-input assumption: baseline powers (specified cells and the
default fill value) and the flexible fraction are nonnegative. -/
def NonnegInput (P : Params) (D : DayInput) : Prop :=
  0 ≤ P.hourlyBasePower ∧ (∀ h q, D.power h = some q → 0 ≤ q) ∧ 0 ≤ P.percentFlexible

/-- Parameters of the concrete scenario of spec section 8: one swap allowed,
delayed rebound, full flexibility, full rebound. -/
def P1 : Params := ⟨1, false, 1, 1, 1⟩

/-- Concrete scenario day: price 10 everywhere except a peak of 100 at hour 8
and a trough of 1 at hour 3; power 1 in every hour. -/
def D1 : DayInput :=
  ⟨fun h => if h = 8 then 100 else if h = 3 then 1 else 10, fun _ => some 1⟩

/-- The single action the engine applies on the concrete scenario day. -/
def A1 : Action := ⟨8, 9, -90, -100, 10, -1, 1⟩

/-- Parameters with a lossy rebound (shifted fraction 1/2). -/
def P3 : Params := ⟨1, false, 1, 1, 1/2⟩

/-- Lossy parameters used by the conservation counterexample. -/
def Pcex : Params := ⟨1, false, 5, 1, 1/2⟩

/-- Day on which every power cell is unspecified (all hours ineligible). -/
def Dmask : DayInput := ⟨fun _ => 10, fun _ => none⟩

/-- Parameters used by the two-direction counterexample. -/
def P2 : Params := ⟨1, false, 1, 1, 1⟩

/-- Day with strictly increasing prices: every pair has a beneficial
down-then-up direction and no beneficial up-then-down direction. -/
def D2 : DayInput := ⟨fun h => (h : ℚ), fun _ => some 1⟩

/-- Immediate-rebound parameters for the adjacency scenarios. -/
def P8 : Params := ⟨1, true, 1, 1, 1⟩

/-- Adjacency scenario: price spike at hour 10 and trough at hour 14. -/
def D8far : DayInput :=
  ⟨fun h => if h = 10 then 100 else if h = 14 then 1 else 10, fun _ => some 1⟩

/-- Adjacency scenario: price spike at hour 10 and trough at hour 11. -/
def D8near : DayInput :=
  ⟨fun h => if h = 10 then 100 else if h = 11 then 1 else 10, fun _ => some 1⟩

/-- The action applied on the far-trough adjacency day. -/
def A8 : Action := ⟨10, 11, -90, -100, 10, -1, 1⟩

/-- Parameters for the mask-respect witness (default fill value 7). -/
def P9 : Params := ⟨2, false, 7, 1, 1⟩

/-- Day with hour 5 unspecified and power 1 elsewhere. -/
def D9 : DayInput := ⟨fun _ => 10, fun h => if h = 5 then none else some 1⟩

/-- Orchestrator input with `shiftable_hours = 0`: provided but not positive. -/
def inp0 : PrepInput := ⟨some 0, false, 1, 1, 1, List.replicate 24 10, fun _ => some 1⟩

/-- Orchestrator input that passes validation but trips the post-run assert:
`shifted_load_percentage = 1/2` with every power cell unspecified, so no
action is applied and the power total is conserved instead of strictly
decreasing. -/
def inpAbort : PrepInput := ⟨some 1, false, 5, 1, 1/2, List.replicate 24 10, fun _ => none⟩

theorem evalPair_eq (P : Params) (D : DayInput) (i j : Nat) :
    evalPair P D i j =
      if pairEligible P D i j = true ∧ upDownCost P D i j < 0
      then some (upDownAction P D i j) else none := by
  unfold evalPair upDownAction
  by_cases he : pairEligible P D i j = true
  · simp only [he, if_true, true_and]
    by_cases hud : upDownCost P D i j < 0
    · simp [hud]
    · simp [hud, lt_irrefl]
  · simp [he]

theorem pairEligible_spell {P : Params} {D : DayInput} {i j : Nat}
    (h : pairEligible P D i j = true) :
    i < j ∧ maskAt D i = false ∧ maskAt D j = false ∧
      (P.immediateRebound = true → ¬(1 < j - i)) := by
  have h' := h
  simp only [pairEligible, Bool.and_eq_true, Bool.not_eq_true',
    decide_eq_false_iff_not, not_le, Bool.not_eq_true] at h'
  obtain ⟨⟨⟨h1, h2⟩, h3⟩, h4⟩ := h'
  refine ⟨h1, h2, h3, fun himm hgt => ?_⟩
  rcases Bool.and_eq_false_iff.mp h4 with h5 | h5
  · exact absurd (decide_eq_true hgt) (by simp [h5])
  · rw [himm] at h5; cases h5

theorem mem_emitted {P : Params} {D : DayInput} {a : Action}
    (ha : a ∈ emitted P D) :
    ∃ i j, i ∈ List.range 24 ∧ j ∈ List.range 24 ∧ evalPair P D i j = some a := by
  simp only [emitted, List.mem_flatMap, List.mem_filterMap] at ha
  obtain ⟨i, hi, j, hj, hev⟩ := ha
  exact ⟨i, j, hi, hj, hev⟩

theorem upDownAction_ok {P : Params} {D : DayInput} {i j : Nat}
    (hel : pairEligible P D i j = true) (hud : upDownCost P D i j < 0)
    (hj : j < 24) : EmittedOK P D (upDownAction P D i j) := by
  obtain ⟨hij, hmi, hmj, himm⟩ := pairEligible_spell hel
  refine ⟨hij, hj, hmi, hmj, fun him => ?_, rfl, hud, rfl, rfl, rfl, rfl⟩
  show j = i + 1
  have := himm him
  omega

theorem emitted_ok {P : Params} {D : DayInput} {a : Action}
    (ha : a ∈ emitted P D) : EmittedOK P D a := by
  obtain ⟨i, j, hi, hj, hev⟩ := mem_emitted ha
  rw [evalPair_eq] at hev
  split at hev
  case isTrue hc =>
    obtain rfl : upDownAction P D i j = a := Option.some_injective _ hev
    exact upDownAction_ok hc.1 hc.2 (List.mem_range.mp hj)
  case isFalse => cases hev

theorem mem_insertAction {a b : Action} {l : List Action} :
    b ∈ insertAction a l ↔ b = a ∨ b ∈ l := by
  induction l with
  | nil => simp [insertAction]
  | cons c cs ih =>
      simp only [insertAction]
      split
      · simp only [List.mem_cons, ih]
        tauto
      · simp only [List.mem_cons]

theorem mem_sortActions {a : Action} {l : List Action} :
    a ∈ sortActions l ↔ a ∈ l := by
  induction l with
  | nil => simp [sortActions]
  | cons c cs ih => simp [sortActions, mem_insertAction, ih]

theorem buildUnique_sub :
    ∀ (l acc : List Action) (x : Action), x ∈ buildUnique acc l → x ∈ acc ∨ x ∈ l := by
  intro l
  induction l with
  | nil => intro acc x h; exact .inl h
  | cons c cs ih =>
      intro acc x h
      simp only [buildUnique] at h
      split at h
      · rcases ih acc x h with h' | h'
        · exact .inl h'
        · exact .inr (List.mem_cons_of_mem _ h')
      · rcases ih (acc ++ [c]) x h with h' | h'
        · rcases List.mem_append.mp h' with h'' | h''
          · exact .inl h''
          · have hxc : x = c := by simpa using h''
            exact .inr (by simp [hxc])
        · exact .inr (List.mem_cons_of_mem _ h')

theorem buildUnique_append :
    ∀ (l acc : List Action), ∃ t, buildUnique acc l = acc ++ t := by
  intro l
  induction l with
  | nil => intro acc; exact ⟨[], by simp [buildUnique]⟩
  | cons c cs ih =>
      intro acc
      simp only [buildUnique]
      split
      · exact ih acc
      · obtain ⟨t, ht⟩ := ih (acc ++ [c])
        exact ⟨c :: t, by rw [ht]; simp⟩

theorem NoOv_symm {a b : Action} (h : NoOv a b) : NoOv b a :=
  ⟨h.1.symm, h.2.2.1.symm, h.2.1.symm, h.2.2.2.symm⟩

theorem overlapsB_eq_false {x : Action} {acc : List Action} :
    overlapsB x acc = false ↔ ∀ b ∈ acc, NoOv x b := by
  simp only [overlapsB, touches, List.any_eq_false, Bool.or_eq_true, beq_iff_eq,
    not_or, NoOv]
  constructor
  · intro h b hb
    have hh := h b hb
    exact ⟨hh.1.1, hh.1.2, hh.2.1, hh.2.2⟩
  · intro h b hb
    have hh := h b hb
    exact ⟨⟨hh.1, hh.2.1⟩, hh.2.2.1, hh.2.2.2⟩

theorem buildUnique_pairwise :
    ∀ (l acc : List Action), acc.Pairwise NoOv → (buildUnique acc l).Pairwise NoOv := by
  intro l
  induction l with
  | nil => intro acc h; exact h
  | cons c cs ih =>
      intro acc h
      simp only [buildUnique]
      split
      · exact ih acc h
      case isFalse hov =>
        refine ih (acc ++ [c]) ?_
        rw [List.pairwise_append]
        refine ⟨h, List.pairwise_singleton _ _, ?_⟩
        intro a ha b hb
        rw [List.mem_singleton] at hb
        subst hb
        exact NoOv_symm ((overlapsB_eq_false.mp (Bool.of_not_eq_true hov)) a ha)

theorem applied_subset_emitted {P : Params} {D : DayInput} {a : Action}
    (ha : a ∈ applied P D) : a ∈ emitted P D := by
  have h1 : a ∈ buildUnique [] (sortActions (emitted P D)) :=
    (List.take_sublist _ _).subset ha
  rcases buildUnique_sub _ _ _ h1 with h2 | h2
  · cases h2
  · exact mem_sortActions.mp h2

theorem applied_ok {P : Params} {D : DayInput} {a : Action}
    (ha : a ∈ applied P D) : EmittedOK P D a :=
  emitted_ok (applied_subset_emitted ha)

theorem applied_pairwise (P : Params) (D : DayInput) :
    (applied P D).Pairwise NoOv :=
  List.Pairwise.sublist (List.take_sublist _ _)
    (buildUnique_pairwise (sortActions (emitted P D)) [] List.Pairwise.nil)

theorem applied_length (P : Params) (D : DayInput) :
    (applied P D).length ≤ P.shiftableHours := by
  simp [applied]

theorem list_sum_nonpos {l : List ℚ} (h : ∀ x ∈ l, x ≤ 0) : l.sum ≤ 0 := by
  induction l with
  | nil => simp
  | cons x xs ih =>
      rw [List.sum_cons]
      have hx := h x (List.mem_cons_self _ _)
      have hxs := ih fun y hy => h y (List.mem_cons_of_mem _ hy)
      linarith

theorem list_sum_neg {l : List ℚ} (h : ∀ x ∈ l, x ≤ 0) {x : ℚ}
    (hx : x ∈ l) (hxneg : x < 0) : l.sum < 0 := by
  induction l with
  | nil => cases hx
  | cons y ys ih =>
      rw [List.sum_cons]
      have hys : ys.sum ≤ 0 := list_sum_nonpos fun z hz => h z (List.mem_cons_of_mem _ hz)
      rcases List.mem_cons.mp hx with rfl | hx'
      · linarith
      · have := ih (fun z hz => h z (List.mem_cons_of_mem _ hz)) hx'
        have hy := h y (List.mem_cons_self _ _)
        linarith

theorem sum_contrib (f g : Action → ℚ) :
    ∀ (l : List Action), (∀ a ∈ l, a.i < 24 ∧ a.j < 24) →
      (∑ h in Finset.range 24,
        (l.map fun a => (if a.i = h then f a else 0) + (if a.j = h then g a else 0)).sum)
        = (l.map fun a => f a + g a).sum := by
  intro l
  induction l with
  | nil => simp
  | cons a as ih =>
      intro hk
      simp only [List.map_cons, List.sum_cons, Finset.sum_add_distrib]
      rw [show (∑ h in Finset.range 24,
            (as.map fun b => (if b.i = h then f b else 0) + (if b.j = h then g b else 0)).sum)
          = (as.map fun b => f b + g b).sum
        from ih fun b hb => hk b (List.mem_cons_of_mem _ hb)]
      have ha := hk a (List.mem_cons_self _ _)
      rw [Finset.sum_ite_eq, Finset.sum_ite_eq]
      simp [Finset.mem_range.mpr ha.1, Finset.mem_range.mpr ha.2]

theorem applied_bounds {P : Params} {D : DayInput} :
    ∀ a ∈ applied P D, a.i < 24 ∧ a.j < 24 := by
  intro a ha
  have h := applied_ok ha
  exact ⟨lt_trans h.hij h.hj24, h.hj24⟩

theorem memCostTotal_eq (P : Params) (D : DayInput) :
    memCostTotal P D
      = baseCostTotal P D + ((applied P D).map fun a => a.dc1 + a.dc2).sum := by
  unfold memCostTotal memCostAt baseCostTotal contribCost
  rw [Finset.sum_add_distrib]
  rw [sum_contrib (fun a => a.dc1) (fun a => a.dc2) (applied P D) applied_bounds]

theorem memPowerTotal_eq (P : Params) (D : DayInput) :
    memPowerTotal P D
      = basePowerTotal P D + ((applied P D).map fun a => a.dp1 + a.dp2).sum := by
  unfold memPowerTotal memPowerAt basePowerTotal contribPow
  rw [Finset.sum_add_distrib]
  rw [sum_contrib (fun a => a.dp1) (fun a => a.dp2) (applied P D) applied_bounds]

theorem contribPow_touch {l : List Action} {h : Nat}
    (hz : ∀ a ∈ l, ¬(a.i = h ∨ a.j = h)) : contribPow l h = 0 := by
  induction l with
  | nil => simp [contribPow]
  | cons a as ih =>
      have ha := hz a (List.mem_cons_self _ _)
      simp only [contribPow, List.map_cons, List.sum_cons]
      rw [if_neg (fun e => ha (.inl e)), if_neg (fun e => ha (.inr e))]
      have := ih fun b hb => hz b (List.mem_cons_of_mem _ hb)
      simp only [contribPow] at this
      simp [this]

theorem contribCost_untouched {l : List Action} {h : Nat}
    (hz : ∀ a ∈ l, ¬(a.i = h ∨ a.j = h)) : contribCost l h = 0 := by
  induction l with
  | nil => simp [contribCost]
  | cons a as ih =>
      have ha := hz a (List.mem_cons_self _ _)
      simp only [contribCost, List.map_cons, List.sum_cons]
      rw [if_neg (fun e => ha (.inl e)), if_neg (fun e => ha (.inr e))]
      have := ih fun b hb => hz b (List.mem_cons_of_mem _ hb)
      simp only [contribCost] at this
      simp [this]

theorem contribPow_single :
    ∀ {l : List Action}, l.Pairwise NoOv → ∀ {a : Action}, a ∈ l → a.i ≠ a.j →
      contribPow l a.i = a.dp1 ∧ contribPow l a.j = a.dp2 := by
  intro l hl
  induction l with
  | nil => intro a ha; cases ha
  | cons b bs ih =>
      intro a ha hij
      have hrel := List.pairwise_cons.mp hl
      rcases List.mem_cons.mp ha with rfl | ha'
      · have hz : ∀ c ∈ bs, ¬(c.i = a.i ∨ c.j = a.i) := by
          intro c hc
          have hno := hrel.1 c hc
          exact fun e => e.elim (fun e1 => hno.1 e1.symm) (fun e2 => hno.2.1 e2.symm)
        have hz' : ∀ c ∈ bs, ¬(c.i = a.j ∨ c.j = a.j) := by
          intro c hc
          have hno := hrel.1 c hc
          exact fun e => e.elim (fun e1 => hno.2.2.1 e1.symm) (fun e2 => hno.2.2.2 e2.symm)
        constructor
        · have hzz := contribPow_touch hz
          simp only [contribPow, List.map_cons, List.sum_cons] at hzz ⊢
          simp [Ne.symm hij, hzz]
        · have hzz := contribPow_touch hz'
          simp only [contribPow, List.map_cons, List.sum_cons] at hzz ⊢
          simp [hij, hzz]
      · have hno := hrel.1 a ha'
        have hmain := ih hrel.2 ha' hij
        constructor
        · simp only [contribPow, List.map_cons, List.sum_cons]
          rw [if_neg (fun e => hno.1 e), if_neg (fun e => hno.2.2.1 e)]
          have := hmain.1
          simp only [contribPow] at this
          simp [this]
        · simp only [contribPow, List.map_cons, List.sum_cons]
          rw [if_neg (fun e => hno.2.1 e), if_neg (fun e => hno.2.2.2 e)]
          have := hmain.2
          simp only [contribPow] at this
          simp [this]

theorem contribPow_ne_zero_touch {l : List Action} {h : Nat}
    (hne : contribPow l h ≠ 0) : ∃ a ∈ l, a.i = h ∨ a.j = h := by
  by_contra hc
  push_neg at hc
  exact hne (contribPow_touch fun a ha => by
    have := hc a ha
    tauto)

theorem hours_length : ∀ l : List Action, (l.flatMap fun a => [a.i, a.j]).length = 2 * l.length := by
  intro l
  induction l with
  | nil => simp
  | cons a as ih => simp [ih]; omega

theorem nodup_subset_length {l l' : List Nat} (hn : l.Nodup) (hs : ∀ x ∈ l, x ∈ l') :
    l.length ≤ l'.length :=
  calc l.length = l.toFinset.card := (List.toFinset_card_of_nodup hn).symm
    _ ≤ l'.toFinset.card := Finset.card_le_card fun x hx =>
        List.mem_toFinset.mpr (hs x (List.mem_toFinset.mp hx))
    _ ≤ l'.length := List.toFinset_card_le _

theorem buildUnique_take_eq :
    ∀ (l acc : List Action) (k : Nat), acc.length ≤ k →
      (buildUnique acc l).take k = specGreedySelect k acc l := by
  intro l
  induction l with
  | nil =>
      intro acc k hk
      simp only [buildUnique, specGreedySelect]
      exact List.take_of_length_le hk
  | cons c cs ih =>
      intro acc k hk
      simp only [buildUnique, specGreedySelect]
      by_cases hstop : acc.length = k
      · rw [if_pos hstop]
        obtain ⟨t, ht⟩ := buildUnique_append (c :: cs) acc
        simp only [buildUnique] at ht
        rw [ht, ← hstop, List.take_left]
      · rw [if_neg hstop]
        have hlt : acc.length < k := lt_of_le_of_ne hk hstop
        split
        · exact ih acc k hk
        · exact ih (acc ++ [c]) k (by simp; omega)

theorem filled_nonneg {P : Params} {D : DayInput} (hn : NonnegInput P D) (h : Nat) :
    0 ≤ filled P D h := by
  unfold filled
  cases hd : D.power h with
  | none => exact hn.1
  | some q => exact hn.2.1 h q hd

theorem flex_nonneg {P : Params} {D : DayInput} (hn : NonnegInput P D) (h : Nat) :
    0 ≤ flex P D h :=
  mul_nonneg (filled_nonneg hn h) hn.2.2

theorem flex_ne_zero_of_ok {P : Params} {D : DayInput} {a : Action}
    (hok : EmittedOK P D a) : flex P D a.i ≠ 0 := by
  intro hf
  have hv := hok.valNeg
  rw [hok.valEq] at hv
  unfold upDownCost at hv
  rw [hf] at hv
  simp at hv

/-- C5: for every day the total of `mem_cost` over the 24 hours is at most
the total of `base_cost`: each applied action adds its strictly negative
value to the daily cost, so optimization never makes the day worse. -/
theorem daily_cost_never_worse (P : Params) (D : DayInput) :
    memCostTotal P D ≤ baseCostTotal P D := by
  rw [memCostTotal_eq]
  have hs : ((applied P D).map fun a => a.dc1 + a.dc2).sum ≤ 0 := by
    refine list_sum_nonpos ?_
    intro x hx
    obtain ⟨a, ha, rfl⟩ := List.mem_map.mp hx
    have h := applied_ok ha
    have he : a.dc1 + a.dc2 = a.val := by
      rw [h.dc1Eq, h.dc2Eq, h.valEq]
      unfold upDownCost
      ring
    rw [he]
    exact le_of_lt h.valNeg
  linarith

/-- C4: on every day at most `2 × shiftable_hours` hours have a shifted power
differing from the filled baseline: at most `shiftable_hours` actions are
applied and each touches exactly its two hours. -/
theorem budget_invariant (P : Params) (D : DayInput) :
    ((List.range 24).filter fun h => decide (memPowerAt P D h ≠ filled P D h)).length
      ≤ 2 * P.shiftableHours := by
  have hsub : ∀ h ∈ (List.range 24).filter
        fun h => decide (memPowerAt P D h ≠ filled P D h),
      h ∈ (applied P D).flatMap fun a => [a.i, a.j] := by
    intro h hh
    have hp := of_decide_eq_true (List.mem_filter.mp hh).2
    have hc : contribPow (applied P D) h ≠ 0 := by
      intro e
      apply hp
      unfold memPowerAt
      rw [e]
      ring
    obtain ⟨a, ha, hor⟩ := contribPow_ne_zero_touch hc
    refine List.mem_flatMap.mpr ⟨a, ha, ?_⟩
    rcases hor with e | e <;> simp [e]
  calc ((List.range 24).filter
        fun h => decide (memPowerAt P D h ≠ filled P D h)).length
      ≤ ((applied P D).flatMap fun a => [a.i, a.j]).length :=
        nodup_subset_length (List.Nodup.filter _ (List.nodup_range 24)) hsub
    _ = 2 * (applied P D).length := hours_length _
    _ ≤ 2 * P.shiftableHours := by
        have := applied_length P D
        omega

/-- C3 (amended): with `shifted_fraction = 1` the daily power total is
conserved exactly; with nonnegative inputs and `shifted_fraction ≤ 1` it
never increases, and it strictly decreases exactly when `shifted_fraction
< 1` and at least one action is applied — a day with no beneficial action
keeps its total unchanged even when `shifted_fraction < 1`. -/
theorem power_totals_conservation (P : Params) (D : DayInput) :
    (P.shiftedLoadPercentage = 1 → memPowerTotal P D = basePowerTotal P D)
    ∧ (NonnegInput P D → P.shiftedLoadPercentage ≤ 1 →
        memPowerTotal P D ≤ basePowerTotal P D)
    ∧ (NonnegInput P D → P.shiftedLoadPercentage < 1 → applied P D ≠ [] →
        memPowerTotal P D < basePowerTotal P D) := by
  have key : ∀ a ∈ applied P D,
      a.dp1 + a.dp2 = flex P D a.i * (P.shiftedLoadPercentage - 1) := by
    intro a ha
    have hok := applied_ok ha
    rw [hok.dp1Eq, hok.dp2Eq]
    ring
  refine ⟨?_, ?_, ?_⟩
  · intro hs
    rw [memPowerTotal_eq]
    have hz : ((applied P D).map fun a => a.dp1 + a.dp2).sum = 0 := by
      refine List.sum_eq_zero ?_
      intro x hx
      obtain ⟨a, ha, rfl⟩ := List.mem_map.mp hx
      rw [key a ha, hs]
      ring
    rw [hz]
    ring
  · intro hn hs
    rw [memPowerTotal_eq]
    have hz : ((applied P D).map fun a => a.dp1 + a.dp2).sum ≤ 0 := by
      refine list_sum_nonpos ?_
      intro x hx
      obtain ⟨a, ha, rfl⟩ := List.mem_map.mp hx
      rw [key a ha]
      have h1 := flex_nonneg hn a.i
      nlinarith
    linarith
  · intro hn hs hne
    rw [memPowerTotal_eq]
    obtain ⟨a, ha⟩ := List.exists_mem_of_ne_nil _ hne
    have hflex : 0 < flex P D a.i :=
      lt_of_le_of_ne (flex_nonneg hn a.i) (Ne.symm (flex_ne_zero_of_ok (applied_ok ha)))
    have hterm : a.dp1 + a.dp2 < 0 := by
      rw [key a ha]
      nlinarith
    have hall : ∀ x ∈ (applied P D).map fun a => a.dp1 + a.dp2, x ≤ 0 := by
      intro x hx
      obtain ⟨b, hb, rfl⟩ := List.mem_map.mp hx
      rw [key b hb]
      have := flex_nonneg hn b.i
      nlinarith
    have := list_sum_neg hall (List.mem_map.mpr ⟨a, ha, rfl⟩) hterm
    linarith

/-- C7: the source's strategy — build the full non-overlapping list from the
sorted candidates and then truncate to `shiftable_hours` entries — computes
the same selected action sequence as the spec's early-stopping greedy loop. -/
theorem selection_refines_early_stop (P : Params) (D : DayInput) :
    applied P D = specGreedySelect P.shiftableHours [] (sortActions (emitted P D)) :=
  buildUnique_take_eq (sortActions (emitted P D)) [] P.shiftableHours (by simp)

/-- C9: an hour whose power cell is unspecified (masked) never appears in a
selected action, and its shifted power and cost equal the filled baseline. -/
theorem masked_hours_untouched (P : Params) (D : DayInput) (h : Nat)
    (hm : maskAt D h = true) :
    memPowerAt P D h = filled P D h ∧ memCostAt P D h = baseCostAt P D h
    ∧ ∀ a ∈ applied P D, a.i ≠ h ∧ a.j ≠ h := by
  have huntouched : ∀ a ∈ applied P D, a.i ≠ h ∧ a.j ≠ h := by
    intro a ha
    have hok := applied_ok ha
    constructor
    · intro e
      have hmi := hok.maskI
      rw [e, hm] at hmi
      cases hmi
    · intro e
      have hmj := hok.maskJ
      rw [e, hm] at hmj
      cases hmj
  refine ⟨?_, ?_, huntouched⟩
  · unfold memPowerAt
    rw [contribPow_touch fun a ha => by have := huntouched a ha; tauto]
    ring
  · unfold memCostAt
    rw [contribCost_untouched fun a ha => by have := huntouched a ha; tauto]
    ring

/-- C10: every applied action moves load forward in time only — its hours
satisfy i < j, hour i loses exactly `percent_flexible × base_power[i]` and
hour j gains that amount times `shifted_load_percentage`; the dead
down-then-up branch (line 112 forces `down_up_cost = 0.0`) can never move
load from a later hour to an earlier one. -/
theorem applied_actions_shift_forward (P : Params) (D : DayInput) (a : Action)
    (ha : a ∈ applied P D) :
    a.i < a.j
    ∧ memPowerAt P D a.i = filled P D a.i - P.percentFlexible * filled P D a.i
    ∧ memPowerAt P D a.j = filled P D a.j
        + P.percentFlexible * filled P D a.i * P.shiftedLoadPercentage := by
  have hok := applied_ok ha
  have hpair := contribPow_single (applied_pairwise P D) ha (Nat.ne_of_lt hok.hij)
  refine ⟨hok.hij, ?_, ?_⟩
  · unfold memPowerAt
    rw [hpair.1, hok.dp1Eq]
    unfold flex
    ring
  · unfold memPowerAt
    rw [hpair.2, hok.dp2Eq]
    unfold flex
    ring

/-- C6 (amended): `prepare_and_run_optimization` yields a result exactly when
validation and the post-run conservation asserts both pass, and validation
checks exactly: `shiftable_hours` provided, price length a multiple of 24,
`percent_flexible` within [0,1], and the built power matrix shaped like the
price matrix.  Positivity of `shiftable_hours` is not among the checks, and
passing validation rules out only configuration errors — the run can still
abort on the post-run asserts of lines 250-263. -/
theorem validation_characterization (inp : PrepInput) :
    ((prepare_and_run_optimization inp).isSome ↔
        (validateChecks inp = true ∧ postRunCheck inp = true))
    ∧ (validateChecks inp = false → prepare_and_run_optimization inp = none)
    ∧ (validateChecks inp = true ↔
        (inp.shiftableHours.isSome = true ∧ inp.prices.length % 24 = 0
          ∧ (0 ≤ inp.percentFlexible ∧ inp.percentFlexible ≤ 1)
          ∧ builtPowerLen inp = inp.prices.length)) := by
  refine ⟨?_, ?_, ?_⟩
  · constructor
    · intro hsome
      by_cases hv : validateChecks inp = true
      · by_cases hp : postRunCheck inp = true
        · exact ⟨hv, hp⟩
        · unfold prepare_and_run_optimization at hsome
          rw [if_pos hv, if_neg hp] at hsome
          simp at hsome
      · unfold prepare_and_run_optimization at hsome
        rw [if_neg hv] at hsome
        simp at hsome
    · intro hvp
      unfold prepare_and_run_optimization
      rw [if_pos hvp.1, if_pos hvp.2]
      rfl
  · intro hv
    unfold prepare_and_run_optimization
    rw [if_neg (by simp [hv])]
  · simp only [validateChecks, Bool.and_eq_true, decide_eq_true_eq, beq_iff_eq]
    tauto

/-- C2 (amended): only the up-then-down direction is effective.  Line 112
overwrites `down_up_cost` with 0.0 before the comparison, so an action is
emitted exactly when the pair is eligible and the up-then-down net benefit
is strictly negative, and the recorded action is always the up-then-down
one. -/
theorem evaluator_up_down_only (P : Params) (D : DayInput) (i j : Nat) :
    evalPair P D i j =
      if pairEligible P D i j = true ∧ upDownCost P D i j < 0
      then some (upDownAction P D i j) else none :=
  evalPair_eq P D i j

attribute [local semireducible] Rat.mul Rat.add Rat.sub Rat.inv

/-- C2 counterexample: on the day with strictly increasing prices the pair
(0, 1) is eligible and its down-then-up net benefit (the formula of lines
107-110) is strictly negative, yet no action is emitted for it — or for any
pair — because the down-then-up value is overwritten with 0.0 at line 112.
The spec's claim that an action is emitted whenever at least one direction
is strictly negative is therefore false. -/
theorem down_up_direction_ignored :
    pairEligible P2 D2 0 1 = true ∧ downUpFormula P2 D2 0 1 < 0
    ∧ evalPair P2 D2 0 1 = none ∧ emitted P2 D2 = [] := by decide

/-- C1 counterexample: on the concrete scenario day no selected action
touches hour 3 (hour 3 keeps its baseline power and cost), and the run does
not perform the cost-minimizing single swap either — moving hour 8's load to
hour 3 would change the daily cost by −99, but the run only achieves −90. -/
theorem peak_to_trough_not_chosen :
    ((applied P1 D1).all fun a => !(decide (a.i = 3) || decide (a.j = 3))) = true
    ∧ memPowerAt P1 D1 3 = filled P1 D1 3
    ∧ memCostAt P1 D1 3 = baseCostAt P1 D1 3
    ∧ upDownCost P1 D1 8 3 = -99
    ∧ memCostTotal P1 D1 = baseCostTotal P1 D1 - 90 := by decide

/-- C1 (amended): on the concrete scenario the engine applies the single
action moving hour 8's load to hour 9 — the best action among the emitted
up-then-down candidates (every emitted value is ≥ −90) since the trough at
hour 3 precedes the peak and rebound must follow up-regulation; the shifted
daily cost 231 is strictly below the baseline 321 and the daily power total
24 is conserved. -/
theorem scenario_peak8_trough3_result :
    applied P1 D1 = [A1]
    ∧ memCostTotal P1 D1 = 231 ∧ baseCostTotal P1 D1 = 321
    ∧ memCostTotal P1 D1 < baseCostTotal P1 D1
    ∧ memPowerTotal P1 D1 = 24 ∧ basePowerTotal P1 D1 = 24
    ∧ ((emitted P1 D1).all fun a => decide (-90 ≤ a.val)) = true := by decide

/-- C3 counterexample: with `shifted_fraction = 1/2 < 1` and a day on which
every hour is ineligible, no action is applied and the power total is
conserved rather than strictly decreased — the unconditional strict decrease
claimed for `shifted_fraction < 1` fails (and the source's own assert at
lines 261-263 would abort on this input). -/
theorem lossy_shift_conserves_power_cex :
    Pcex.shiftedLoadPercentage < 1
    ∧ memPowerTotal Pcex Dmask = basePowerTotal Pcex Dmask
    ∧ ¬(memPowerTotal Pcex Dmask < basePowerTotal Pcex Dmask) := by decide

/-- Witness for the conservation theorem: full rebound conserves the total
on the concrete scenario day; lossy rebound (1/2) on the same day applies an
action and strictly decreases the total. -/
theorem power_totals_conservation_witness :
    (P1.shiftedLoadPercentage = 1 ∧ memPowerTotal P1 D1 = basePowerTotal P1 D1)
    ∧ (P3.shiftedLoadPercentage ≤ 1 ∧ memPowerTotal P3 D1 ≤ basePowerTotal P3 D1)
    ∧ (P3.shiftedLoadPercentage < 1 ∧ applied P3 D1 ≠ []
        ∧ memPowerTotal P3 D1 < basePowerTotal P3 D1) := by
  have hn : NonnegInput P3 D1 := by
    refine ⟨by decide, ?_, by decide⟩
    intro h q e
    have e' : some (1 : ℚ) = some q := e
    injection e' with e''
    rw [← e'']
    norm_num
  refine ⟨⟨rfl, (power_totals_conservation P1 D1).1 rfl⟩,
    ⟨by decide, (power_totals_conservation P3 D1).2.1 hn (by decide)⟩,
    ⟨by decide, by decide,
      (power_totals_conservation P3 D1).2.2 hn (by decide) (by decide)⟩⟩

/-- C6 counterexample: `shiftable_hours = 0` is provided but not positive,
yet validation passes and the run returns a (no-op) result instead of
failing fast — positivity is never checked (line 226 only checks for
`None`).  Conversely, passing validation does not guarantee a result:
`inpAbort` passes every validation check but the run aborts on the post-run
assert of lines 261-263 and returns nothing. -/
theorem validation_allows_zero_shiftable_hours :
    inp0.shiftableHours = some 0 ∧ validateChecks inp0 = true
    ∧ (prepare_and_run_optimization inp0).isSome = true
    ∧ applied ⟨0, false, 1, 1, 1⟩ (dayOf inp0 0) = []
    ∧ validateChecks inpAbort = true
    ∧ prepare_and_run_optimization inpAbort = none := by decide

/-- C8: under immediate rebound every applied action pairs adjacent hours
(j = i + 1, hence |i − j| ≤ 1); concretely, with a spike at hour 10 and a
trough at hour 14 the pair (10, 14) is never selected, while with the trough
at hour 11 the pair (10, 11) is exactly what is selected. -/
theorem immediate_rebound_adjacency :
    (∀ (P : Params) (D : DayInput), P.immediateRebound = true →
        ∀ a ∈ applied P D, a.j = a.i + 1)
    ∧ ((applied P8 D8far).all fun a => !(decide (a.i = 10) && decide (a.j = 14))) = true
    ∧ ((applied P8 D8near).map fun a => (a.i, a.j)) = [(10, 11)] := by
  refine ⟨fun P D him a ha => (applied_ok ha).adj him, by decide, by decide⟩

/-- Witness for the adjacency theorem at a concrete input: the action
applied on the far-trough day is (10, 11) and satisfies j = i + 1. -/
theorem immediate_rebound_adjacency_witness :
    P8.immediateRebound = true ∧ A8 ∈ applied P8 D8far ∧ A8.j = A8.i + 1 :=
  ⟨rfl, by decide, immediate_rebound_adjacency.1 P8 D8far rfl A8 (by decide)⟩

/-- Witness for the mask-respect theorem at a concrete input: hour 5 of the
day with an unspecified hour-5 cell keeps its baseline power and cost. -/
theorem masked_hours_untouched_witness :
    maskAt D9 5 = true ∧ memPowerAt P9 D9 5 = filled P9 D9 5
    ∧ memCostAt P9 D9 5 = baseCostAt P9 D9 5 :=
  ⟨by decide, (masked_hours_untouched P9 D9 5 (by decide)).1,
   (masked_hours_untouched P9 D9 5 (by decide)).2.1⟩

/-- Witness for the forward-shift theorem at a concrete input: the action
applied on the concrete scenario day moves hour 8's flexible load to the
later hour 9 with the stated deltas. -/
theorem applied_actions_shift_forward_witness :
    A1 ∈ applied P1 D1 ∧ A1.i < A1.j
    ∧ memPowerAt P1 D1 A1.i = filled P1 D1 A1.i - P1.percentFlexible * filled P1 D1 A1.i
    ∧ memPowerAt P1 D1 A1.j = filled P1 D1 A1.j
        + P1.percentFlexible * filled P1 D1 A1.i * P1.shiftedLoadPercentage := by
  have h := applied_actions_shift_forward P1 D1 A1 (by decide)
  exact ⟨by decide, h.1, h.2.1, h.2.2⟩

end LoadShifting
